import Mathlib

/-!
Shallow embedding of `nfa_to_dfa_visualizer.py` (automaton core only:
data model, epsilon closure, subset construction, simulation).

Python `dict`s are modelled as association lists looked up with `alookup`
(absence of a key means the empty destination set), the epsilon sentinel
key `''` is modelled as `none`, `frozenset`s of NFA states are `Finset Nat`,
and the two `while` loops are written with an explicit fuel argument that
is proved sufficient below (each loop's iteration count is bounded because
every pushed element is fresh and drawn from the finite transition table).
-/

set_option maxHeartbeats 1000000

namespace Vis

/-- Association-list lookup, modelling a Python dict access
(first matching key wins; keys built by the algorithms below are unique). -/
def alookup {α β : Type} [DecidableEq α] : List (α × β) → α → Option β
  | [], _ => none
  | p :: rest, k => if p.1 = k then some p.2 else alookup rest k

/-- The Python class `NFA`. `transitions` mirrors
`Dict[int, Dict[str, List[int]]]`; the inner key `none` stands for the
epsilon sentinel (the empty-string key `''`). The alphabet is kept as a
list, fixing the enumeration order of the Python set iteration. -/
structure NFA where
  states : Finset Nat
  alphabet : List Char
  transitions : List (Nat × List (Option Char × List Nat))
  start : Nat
  final : Finset Nat

/-- The inner dict `transitions[state]`, or the empty dict when absent. -/
def NFA.row (nfa : NFA) (s : Nat) : List (Option Char × List Nat) :=
  (alookup nfa.transitions s).getD []

/-- The raw destination list `transitions[state][key]`, empty when absent. -/
def NFA.deltaList (nfa : NFA) (s : Nat) (k : Option Char) : List Nat :=
  (alookup (nfa.row s) k).getD []

/-- `NFA.delta` from the source: `set(transitions[state][symbol])`,
or the empty set when either key is absent. -/
def NFA.delta (nfa : NFA) (s : Nat) (c : Char) : Finset Nat :=
  (nfa.deltaList s (some c)).toFinset

/-- The epsilon-destination list `transitions[state]['']` walked by
`epsilon_closure`. -/
def NFA.epsDests (nfa : NFA) (s : Nat) : List Nat :=
  nfa.deltaList s none

/-- Every state occurring as a destination anywhere in the transition
table.  This is the finite pool that the source's while loops draw fresh
elements from; it bounds their iteration counts. -/
def NFA.allTargets (nfa : NFA) : Finset Nat :=
  (nfa.transitions.flatMap (fun p => p.2.flatMap (fun q => q.2))).toFinset

/-- A concrete enumeration of a finite set of states, modelling the Python
`list(states)` (whose order is unobservable in the computed results): the
elements in increasing order. -/
def stackOf (S : Finset Nat) : List Nat :=
  Quot.lift (List.insertionSort (· ≤ ·))
    (fun l1 l2 h =>
      List.eq_of_perm_of_sorted
        ((List.perm_insertionSort _ l1).trans
          ((h : l1.Perm l2).trans (List.perm_insertionSort _ l2).symm))
        (List.sorted_insertionSort _ l1) (List.sorted_insertionSort _ l2))
    S.val

/-- The inner for-loop of `epsilon_closure`: walk the epsilon destinations
of the popped state; each destination not already in the closure is added
to the closure and pushed on the stack (the stack is modelled with its
head as top, which leaves the computed set unchanged). -/
def pushNew : List Nat → Finset Nat → List Nat → Finset Nat × List Nat
  | [], closure, stack => (closure, stack)
  | q :: rest, closure, stack =>
    if q ∈ closure then pushNew rest closure stack
    else pushNew rest (insert q closure) (q :: stack)

/-- The while loop of `epsilon_closure`, with fuel bounding the number of
iterations.  The source loop terminates because each state is pushed at
most once; the fuel passed by `NFA.epsilon_closure` is proved sufficient
in the lemmas below, so the fuel-exhausted branch is never reached there. -/
def closureLoopF (nfa : NFA) : Nat → List Nat → Finset Nat → Finset Nat
  | 0, _, closure => closure
  | _ + 1, [], closure => closure
  | n + 1, s :: rest, closure =>
    closureLoopF nfa n (pushNew (nfa.epsDests s) closure rest).2
      (pushNew (nfa.epsDests s) closure rest).1

/-- `NFA.epsilon_closure` from the source: closure and stack both start
as `S` (the stack `list(states)` is modelled as the sorted enumeration of
the set, a fixed order; the computed set does not depend on it). -/
def NFA.epsilon_closure (nfa : NFA) (S : Finset Nat) : Finset Nat :=
  closureLoopF nfa (2 * nfa.allTargets.card + (stackOf S).length + 1) (stackOf S) S

/-- `NFA.move` from the source: the union of `delta(s, c)` over `s ∈ S`.
The subset-construction loop of `thompson_algorithm_visual` inlines this
same union loop; the embedding shares the definition. -/
def NFA.move (nfa : NFA) (S : Finset Nat) (c : Char) : Finset Nat :=
  S.biUnion (fun s => nfa.delta s c)

/-- The for-loop of `NFA.accepts` over the word. -/
def NFA.acceptsGo (nfa : NFA) : Finset Nat → List Char → Bool
  | current, [] => decide (current ∩ nfa.final).Nonempty
  | current, c :: rest =>
    if c ∉ nfa.alphabet then false
    else if nfa.epsilon_closure (nfa.move current c) = ∅ then false
    else nfa.acceptsGo (nfa.epsilon_closure (nfa.move current c)) rest

/-- `NFA.accepts` from the source. -/
def NFA.accepts (nfa : NFA) (word : List Char) : Bool :=
  nfa.acceptsGo (nfa.epsilon_closure {nfa.start}) word

/-- The Python class `DFA`.  States are `frozenset`s of NFA states;
`transitions` mirrors `Dict[frozenset, Dict[str, frozenset]]`. -/
structure DFA where
  states : Finset (Finset Nat)
  alphabet : List Char
  transitions : List (Finset Nat × List (Char × Finset Nat))
  start : Finset Nat
  final : Finset (Finset Nat)

/-- Nested dict lookup `self.transitions[state][char]`; `none` when either
key is absent (the two membership tests of `DFA.accepts`). -/
def dfaLookup (trans : List (Finset Nat × List (Char × Finset Nat)))
    (S : Finset Nat) (a : Char) : Option (Finset Nat) :=
  match alookup trans S with
  | none => none
  | some row => alookup row a

/-- The for-loop of `DFA.accepts`, threading the current state and the
trace of visited states. -/
def DFA.acceptsGo (dfa : DFA) :
    Finset Nat → List (Finset Nat) → List Char → Bool × List (Finset Nat)
  | state, trace, [] => (decide (state ∈ dfa.final), trace)
  | state, trace, c :: rest =>
    if c ∉ dfa.alphabet then (false, trace)
    else
      match dfaLookup dfa.transitions state c with
      | none => (false, trace)
      | some s2 => dfa.acceptsGo s2 (trace ++ [s2]) rest

/-- `DFA.accepts` from the source: the verdict together with the trace,
which starts as `[start]`. -/
def DFA.accepts (dfa : DFA) (word : List Char) : Bool × List (Finset Nat) :=
  dfa.acceptsGo dfa.start [dfa.start] word

/-- One per-symbol record of a construction step (`step_info['transitions'][symbol]`):
destination subset and the `is_new` / `is_empty` flags. -/
structure SymRec where
  sym : Char
  to_state : Finset Nat
  is_new : Bool
  is_empty : Bool

/-- The mutable state of the subset-construction loop: the breadth-first
queue, the `processed` set, and the accumulated `dfa_states` set. -/
structure BuildSt where
  queue : List (Finset Nat)
  processed : Finset (Finset Nat)
  dstates : Finset (Finset Nat)

/-- The per-symbol record written by the loop body: the raw union
`U = nfa.move C a` of `delta` over the current subset (no epsilon closure
is applied) with its `is_new` / `is_empty` flags; `bool(next_state)` is
`U ≠ ∅`. -/
def symRecOf (nfa : NFA) (C : Finset Nat) (a : Char) (st : BuildSt) : SymRec :=
  ⟨a, nfa.move C a,
   decide (nfa.move C a ∉ st.processed ∧ nfa.move C a ≠ ∅),
   decide (nfa.move C a = ∅)⟩

/-- The state update of the per-symbol loop body: enqueue / mark the raw
union when it is non-empty and not previously discovered. -/
def symStepSt (nfa : NFA) (C : Finset Nat) (a : Char) (st : BuildSt) : BuildSt :=
  if nfa.move C a ∉ st.processed ∧ nfa.move C a ≠ ∅ then
    ⟨st.queue ++ [nfa.move C a],
     insert (nfa.move C a) st.processed,
     insert (nfa.move C a) st.dstates⟩
  else st

def symStep (nfa : NFA) (C : Finset Nat) (a : Char) (st : BuildSt) : SymRec × BuildSt :=
  (symRecOf nfa C a st, symStepSt nfa C a st)

/-- Result of the per-symbol loop for one dequeued subset: the transition
row `dfa_transitions[current_state]`, the per-symbol records, and the
updated loop state. -/
structure SymOut where
  rowOut : List (Char × Finset Nat)
  recs : List SymRec
  st : BuildSt

/-- The `for symbol in nfa.alphabet` loop: the row entry
`dfa_transitions[current_state][symbol] = U` is written for every symbol,
new non-empty subsets are enqueued by `symStep`. -/
def symFold (nfa : NFA) (C : Finset Nat) : List Char → BuildSt → SymOut
  | [], st => ⟨[], [], st⟩
  | a :: rest, st =>
    ⟨(a, nfa.move C a) :: (symFold nfa C rest (symStepSt nfa C a st)).rowOut,
     symRecOf nfa C a st :: (symFold nfa C rest (symStepSt nfa C a st)).recs,
     (symFold nfa C rest (symStepSt nfa C a st)).st⟩

/-- One `step_info` record: the dequeued subset, the pre-expansion queue
and processed-set snapshots, and the per-symbol records (the running step
number is the record's position in the list). -/
structure StepRec where
  current : Finset Nat
  queueSnap : List (Finset Nat)
  processedSnap : Finset (Finset Nat)
  recs : List SymRec

/-- Accumulated output of the construction loop: the transition dict
(one row per dequeued subset, in dequeue order), the step log, and the
final `dfa_states`. -/
structure BuildOut where
  trans : List (Finset Nat × List (Char × Finset Nat))
  steps : List StepRec
  dstates : Finset (Finset Nat)

/-- The `while queue` loop of `thompson_algorithm_visual`, with fuel
bounding the number of dequeues (each enqueued subset is fresh and drawn
from the powerset of `allTargets`; the fuel passed below is proved
sufficient, so the fuel-exhausted branch is never reached there). -/
def buildLoopF (nfa : NFA) :
    Nat → List (Finset Nat) → Finset (Finset Nat) → Finset (Finset Nat) → BuildOut
  | 0, _, _, dstates => ⟨[], [], dstates⟩
  | _ + 1, [], _, dstates => ⟨[], [], dstates⟩
  | n + 1, C :: qrest, processed, dstates =>
    let r := symFold nfa C nfa.alphabet ⟨qrest, processed, dstates⟩
    let out := buildLoopF nfa n r.st.queue r.st.processed r.st.dstates
    ⟨(C, r.rowOut) :: out.trans,
     (⟨C, qrest, processed, r.recs⟩ : StepRec) :: out.steps,
     out.dstates⟩

/-- `thompson_algorithm_visual` from the source: the start DFA state is
the bare singleton `frozenset([nfa.start])` (no epsilon closure is applied
to it), the loop starts with queue, `processed` and `dfa_states` all
holding just that singleton, and the accepting DFA states are those whose
subset meets `nfa.final`. -/
def thompson_algorithm_visual (nfa : NFA) : DFA × List StepRec :=
  let startDfa : Finset Nat := {nfa.start}
  let out := buildLoopF nfa (2 * nfa.allTargets.powerset.card + 2) [startDfa] {startDfa} {startDfa}
  (⟨out.dstates, nfa.alphabet, out.trans, startDfa,
    out.dstates.filter (fun S => (S ∩ nfa.final).Nonempty)⟩, out.steps)

/-- Position of the first dead end of the DFA run on a word: the index of
the first character that is outside the alphabet or has no defined
transition from the current state; `none` when the whole word is consumed.
This follows exactly the checks of `DFA.accepts`. -/
def deadIdxGo (dfa : DFA) : Finset Nat → Nat → List Char → Option Nat
  | _, _, [] => none
  | state, i, c :: rest =>
    if c ∉ dfa.alphabet then some i
    else
      match dfaLookup dfa.transitions state c with
      | none => some i
      | some s2 => deadIdxGo dfa s2 (i + 1) rest

/-- First dead-end position of the run of `DFA.accepts` from the start. -/
def deadIdx (dfa : DFA) (word : List Char) : Option Nat :=
  deadIdxGo dfa dfa.start 0 word

/-- `T` is closed under the epsilon transitions of the table: following
any listed epsilon destination stays inside `T`. -/
def EpsClosed (nfa : NFA) (T : Finset Nat) : Prop :=
  ∀ p ∈ T, ∀ q ∈ nfa.epsDests p, q ∈ T

/-- The transition table declares no epsilon transitions (no inner dict
carries the epsilon sentinel key). -/
def NFA.epsFree (nfa : NFA) : Prop :=
  ∀ p ∈ nfa.transitions, ∀ q ∈ p.2, q.1 ≠ none

instance (nfa : NFA) (T : Finset Nat) : Decidable (EpsClosed nfa T) :=
  inferInstanceAs (Decidable (∀ p ∈ T, ∀ q ∈ nfa.epsDests p, q ∈ T))

instance (nfa : NFA) : Decidable nfa.epsFree :=
  inferInstanceAs (Decidable (∀ p ∈ nfa.transitions, ∀ q ∈ p.2, q.1 ≠ none))

/-- The hardcoded automaton of `main()` (lab variant 42): words over
`{a, b}` whose third-from-last character is `a`. -/
def nfaC : NFA :=
  ⟨{1, 2, 3, 4}, ['a', 'b'],
   [(1, [(some 'a', [1, 2]), (some 'b', [1])]),
    (2, [(some 'a', [3]), (some 'b', [3])]),
    (3, [(some 'a', [4]), (some 'b', [4])]),
    (4, [(some 'a', []), (some 'b', [])])],
   1, {4}⟩

/-- A small NFA with an epsilon transition out of the start state,
used to separate the simulator (which applies epsilon closure) from the
construction (which does not). -/
def nfaEps : NFA :=
  ⟨{1, 2}, ['a'], [(1, [(none, [2])]), (2, [(some 'a', [2])])], 1, {2}⟩

/-- A one-state NFA whose `b`-transition leads to the empty subset, used
to exercise the empty-subset sink behaviour of the converted DFA. -/
def nfa2 : NFA :=
  ⟨{1}, ['a', 'b'], [(1, [(some 'a', [1]), (some 'b', [])])], 1, {1}⟩

theorem alookup_mem {α β : Type} [DecidableEq α] {l : List (α × β)} {k : α} {v : β}
    (h : alookup l k = some v) : (k, v) ∈ l := by
  induction l with
  | nil => simp [alookup] at h
  | cons p rest ih =>
    by_cases hp : p.1 = k
    · rw [alookup, if_pos hp] at h
      have hv : p.2 = v := Option.some_injective _ h
      have hpkv : p = (k, v) := Prod.ext hp hv
      rw [← hpkv]
      exact List.mem_cons_self p rest
    · rw [alookup, if_neg hp] at h
      exact List.mem_cons_of_mem _ (ih h)

theorem alookup_eq_none {α β : Type} [DecidableEq α] {l : List (α × β)} {k : α}
    (h : ∀ q ∈ l, q.1 ≠ k) : alookup l k = none := by
  induction l with
  | nil => rfl
  | cons p rest ih =>
    rw [alookup, if_neg (h p (List.mem_cons_self p rest))]
    exact ih fun q hq => h q (List.mem_cons_of_mem _ hq)

theorem alookup_map_of_mem {α β : Type} [DecidableEq α] (f : α → β) {l : List α} {a : α}
    (h : a ∈ l) : alookup (l.map (fun x => (x, f x))) a = some (f a) := by
  induction l with
  | nil => cases h
  | cons x rest ih =>
    rw [List.map_cons, alookup]
    rcases List.mem_cons.mp h with rfl | h2
    · rw [if_pos rfl]
    · by_cases hx : x = a
      · subst hx; rw [if_pos rfl]
      · rw [if_neg hx]; exact ih h2

theorem alookup_map_eq_some {α β : Type} [DecidableEq α] {f : α → β} {l : List α} {a : α}
    {v : β} (h : alookup (l.map (fun x => (x, f x))) a = some v) : a ∈ l ∧ v = f a := by
  induction l with
  | nil => simp [alookup] at h
  | cons x rest ih =>
    rw [List.map_cons, alookup] at h
    by_cases hx : x = a
    · subst hx
      rw [if_pos rfl] at h
      exact ⟨List.mem_cons_self x rest, (Option.some_injective _ h).symm⟩
    · rw [if_neg hx] at h
      exact ⟨List.mem_cons_of_mem _ (ih h).1, (ih h).2⟩

theorem mem_stackOf {S : Finset Nat} {x : Nat} : x ∈ stackOf S ↔ x ∈ S := by
  rcases S with ⟨v, nd⟩
  induction v using Quot.inductionOn with
  | h l =>
    change x ∈ List.insertionSort (· ≤ ·) l ↔ _
    rw [(List.perm_insertionSort (· ≤ ·) l).mem_iff]
    simp [Finset.mem_def, Multiset.mem_coe]

theorem mem_allTargets {nfa : NFA} {x : Nat} :
    x ∈ nfa.allTargets ↔ ∃ p ∈ nfa.transitions, ∃ q ∈ p.2, x ∈ q.2 := by
  simp [NFA.allTargets, List.mem_flatMap]

theorem deltaList_subset_allTargets {nfa : NFA} {s : Nat} {k : Option Char} {x : Nat}
    (h : x ∈ nfa.deltaList s k) : x ∈ nfa.allTargets := by
  unfold NFA.deltaList at h
  rcases hrow : alookup (nfa.row s) k with _ | lst
  · rw [hrow] at h; cases h
  · rw [hrow] at h
    have hrowmem : (k, lst) ∈ nfa.row s := alookup_mem hrow
    unfold NFA.row at hrowmem
    rcases htr : alookup nfa.transitions s with _ | row0
    · rw [htr] at hrowmem; cases hrowmem
    · rw [htr] at hrowmem
      exact mem_allTargets.mpr ⟨(s, row0), alookup_mem htr, (k, lst), hrowmem, h⟩

theorem epsDests_subset_allTargets {nfa : NFA} {s : Nat} {x : Nat}
    (h : x ∈ nfa.epsDests s) : x ∈ nfa.allTargets :=
  deltaList_subset_allTargets h

theorem delta_subset_allTargets (nfa : NFA) (s : Nat) (c : Char) :
    nfa.delta s c ⊆ nfa.allTargets := by
  intro x hx
  exact deltaList_subset_allTargets (List.mem_toFinset.mp hx)

theorem move_subset_allTargets (nfa : NFA) (S : Finset Nat) (c : Char) :
    nfa.move S c ⊆ nfa.allTargets :=
  Finset.biUnion_subset.mpr fun s _ => delta_subset_allTargets nfa s c

theorem card_sdiff_helper {α : Type} [DecidableEq α] {B c c2 : Finset α}
    (h1 : c ⊆ c2) (h2 : c2 \ c ⊆ B) :
    (B \ c2).card + c2.card = (B \ c).card + c.card := by
  have hsplit : B \ c = (B \ c2) ∪ (c2 \ c) := by
    ext x
    simp only [Finset.mem_sdiff, Finset.mem_union]
    constructor
    · intro ⟨hb, hc⟩
      by_cases hx : x ∈ c2
      · exact Or.inr ⟨hx, hc⟩
      · exact Or.inl ⟨hb, hx⟩
    · rintro (⟨hb, hc2⟩ | ⟨hc2, hc⟩)
      · exact ⟨hb, fun hc => hc2 (h1 hc)⟩
      · exact ⟨h2 (Finset.mem_sdiff.mpr ⟨hc2, hc⟩), hc⟩
  have hdisj : Disjoint (B \ c2) (c2 \ c) := by
    rw [Finset.disjoint_left]
    intro x hx hx2
    exact (Finset.mem_sdiff.mp hx).2 (Finset.mem_sdiff.mp hx2).1
  have hcard : (B \ c).card = (B \ c2).card + (c2 \ c).card := by
    rw [hsplit, Finset.card_union_of_disjoint hdisj]
  have hc2 : (c2 \ c).card + c.card = c2.card := Finset.card_sdiff_add_card_eq_card h1
  omega

theorem pushNew_subset : ∀ (d : List Nat) (c : Finset Nat) (st : List Nat),
    c ⊆ (pushNew d c st).1 := by
  intro d
  induction d with
  | nil => intro c st; exact Finset.Subset.refl c
  | cons q rest ih =>
    intro c st
    by_cases hq : q ∈ c
    · rw [pushNew, if_pos hq]; exact ih c st
    · rw [pushNew, if_neg hq]
      exact (Finset.subset_insert q c).trans (ih (insert q c) (q :: st))

theorem pushNew_subset_union : ∀ (d : List Nat) (c : Finset Nat) (st : List Nat),
    (pushNew d c st).1 ⊆ c ∪ d.toFinset := by
  intro d
  induction d with
  | nil => intro c st; exact Finset.subset_union_left
  | cons q rest ih =>
    intro c st
    by_cases hq : q ∈ c
    · rw [pushNew, if_pos hq]
      refine (ih c st).trans ?_
      intro x hx
      rcases Finset.mem_union.mp hx with h | h
      · exact Finset.mem_union_left _ h
      · exact Finset.mem_union_right _ (by rw [List.toFinset_cons]; exact Finset.mem_insert_of_mem h)
    · rw [pushNew, if_neg hq]
      refine (ih (insert q c) (q :: st)).trans ?_
      intro x hx
      rcases Finset.mem_union.mp hx with h | h
      · rcases Finset.mem_insert.mp h with rfl | h2
        · exact Finset.mem_union_right _ (by simp [List.toFinset_cons])
        · exact Finset.mem_union_left _ h2
      · exact Finset.mem_union_right _ (by rw [List.toFinset_cons]; exact Finset.mem_insert_of_mem h)

theorem pushNew_mem_dests : ∀ (d : List Nat) (c : Finset Nat) (st : List Nat),
    ∀ q ∈ d, q ∈ (pushNew d c st).1 := by
  intro d
  induction d with
  | nil => intro c st q hq; cases hq
  | cons q0 rest ih =>
    intro c st q hq
    by_cases hq0 : q0 ∈ c
    · rw [pushNew, if_pos hq0]
      rcases List.mem_cons.mp hq with rfl | h2
      · exact pushNew_subset rest c st hq0
      · exact ih c st q h2
    · rw [pushNew, if_neg hq0]
      rcases List.mem_cons.mp hq with rfl | h2
      · exact pushNew_subset rest (insert q c) (q :: st) (Finset.mem_insert_self q c)
      · exact ih (insert q0 c) (q0 :: st) q h2

theorem pushNew_stack_iff : ∀ (d : List Nat) (c : Finset Nat) (st : List Nat) (x : Nat),
    x ∈ (pushNew d c st).2 ↔ x ∈ st ∨ (x ∈ (pushNew d c st).1 ∧ x ∉ c) := by
  intro d
  induction d with
  | nil => intro c st x; simp [pushNew]
  | cons q rest ih =>
    intro c st x
    by_cases hq : q ∈ c
    · rw [pushNew, if_pos hq]; exact ih c st x
    · rw [pushNew, if_neg hq]
      rw [ih (insert q c) (q :: st) x]
      constructor
      · rintro (h | ⟨h1, h2⟩)
        · rcases List.mem_cons.mp h with rfl | h2
          · exact Or.inr ⟨pushNew_subset rest (insert x c) (x :: st) (Finset.mem_insert_self x c), hq⟩
          · exact Or.inl h2
        · exact Or.inr ⟨h1, fun hc => h2 (Finset.mem_insert_of_mem hc)⟩
      · rintro (h | ⟨h1, h2⟩)
        · exact Or.inl (List.mem_cons_of_mem q h)
        · by_cases hx : x = q
          · subst hx; exact Or.inl (List.mem_cons_self x st)
          · exact Or.inr ⟨h1, fun hc => (Finset.mem_insert.mp hc).elim hx h2⟩

theorem pushNew_card : ∀ (d : List Nat) (c : Finset Nat) (st : List Nat),
    (pushNew d c st).2.length + c.card = st.length + (pushNew d c st).1.card := by
  intro d
  induction d with
  | nil => intro c st; rfl
  | cons q rest ih =>
    intro c st
    by_cases hq : q ∈ c
    · rw [pushNew, if_pos hq]; exact ih c st
    · rw [pushNew, if_neg hq]
      have h2 := ih (insert q c) (q :: st)
      rw [Finset.card_insert_of_not_mem hq] at h2
      simp only [List.length_cons] at h2
      omega

theorem closureLoopF_superset (nfa : NFA) : ∀ (n : Nat) (stack : List Nat) (closure : Finset Nat),
    closure ⊆ closureLoopF nfa n stack closure := by
  intro n
  induction n with
  | zero => intro stack closure; exact Finset.Subset.refl _
  | succ n ih =>
    intro stack closure
    cases stack with
    | nil => exact Finset.Subset.refl _
    | cons s rest =>
      rw [closureLoopF]
      exact (pushNew_subset (nfa.epsDests s) closure rest).trans (ih _ _)

theorem closureLoopF_subset_of_closed (nfa : NFA) (T : Finset Nat) (hT : EpsClosed nfa T) :
    ∀ (n : Nat) (stack : List Nat) (closure : Finset Nat),
      (∀ x ∈ stack, x ∈ closure) → closure ⊆ T →
      closureLoopF nfa n stack closure ⊆ T := by
  intro n
  induction n with
  | zero => intro stack closure _ hcT; exact hcT
  | succ n ih =>
    intro stack closure hsc hcT
    cases stack with
    | nil => exact hcT
    | cons s rest =>
      rw [closureLoopF]
      have hs : s ∈ closure := hsc s (List.mem_cons_self s rest)
      have hdT : ∀ q ∈ nfa.epsDests s, q ∈ T := hT s (hcT hs)
      apply ih
      · intro x hx
        rcases (pushNew_stack_iff (nfa.epsDests s) closure rest x).mp hx with h | ⟨h1, _⟩
        · exact pushNew_subset _ _ _ (hsc x (List.mem_cons_of_mem s h))
        · exact h1
      · refine (pushNew_subset_union _ _ _).trans ?_
        intro x hx
        rcases Finset.mem_union.mp hx with h | h
        · exact hcT h
        · exact hdT x (List.mem_toFinset.mp h)

theorem closureLoopF_closed (nfa : NFA) :
    ∀ (n : Nat) (stack : List Nat) (closure : Finset Nat),
      2 * (nfa.allTargets \ closure).card + stack.length < n →
      (∀ x ∈ stack, x ∈ closure) →
      (∀ p ∈ closure, p ∈ stack ∨ ∀ q ∈ nfa.epsDests p, q ∈ closure) →
      EpsClosed nfa (closureLoopF nfa n stack closure) := by
  intro n
  induction n with
  | zero => intro stack closure hfuel; omega
  | succ n ih =>
    intro stack closure hfuel hsc hinv
    cases stack with
    | nil =>
      intro p hp q hq
      rcases hinv p hp with h | h
      · cases h
      · exact h q hq
    | cons s rest =>
      rw [closureLoopF]
      have hsub : closure ⊆ (pushNew (nfa.epsDests s) closure rest).1 := pushNew_subset _ _ _
      have hsubU := pushNew_subset_union (nfa.epsDests s) closure rest
      have hmemd := pushNew_mem_dests (nfa.epsDests s) closure rest
      have hstk := pushNew_stack_iff (nfa.epsDests s) closure rest
      have hcard := pushNew_card (nfa.epsDests s) closure rest
      have hnewB : (pushNew (nfa.epsDests s) closure rest).1 \ closure ⊆ nfa.allTargets := by
        intro x hx
        have hx2 := Finset.mem_sdiff.mp hx
        rcases Finset.mem_union.mp (hsubU hx2.1) with h | h
        · exact absurd h hx2.2
        · exact epsDests_subset_allTargets (List.mem_toFinset.mp h)
      have hsd := card_sdiff_helper hsub hnewB
      have hle : closure.card ≤ (pushNew (nfa.epsDests s) closure rest).1.card :=
        Finset.card_le_card hsub
      apply ih
      · simp only [List.length_cons] at hfuel
        omega
      · intro x hx
        rcases (hstk x).mp hx with h | ⟨h1, _⟩
        · exact hsub (hsc x (List.mem_cons_of_mem s h))
        · exact h1
      · intro p hp
        by_cases hpc : p ∈ closure
        · rcases hinv p hpc with h | h
          · rcases List.mem_cons.mp h with rfl | h2
            · exact Or.inr fun q hq => hmemd q hq
            · exact Or.inl ((hstk p).mpr (Or.inl h2))
          · exact Or.inr fun q hq => hsub (h q hq)
        · exact Or.inl ((hstk p).mpr (Or.inr ⟨hp, hpc⟩))

theorem subset_epsilon_closure (nfa : NFA) (S : Finset Nat) :
    S ⊆ nfa.epsilon_closure S :=
  closureLoopF_superset nfa _ _ S

theorem epsilon_closure_minimal (nfa : NFA) (S T : Finset Nat)
    (hT : EpsClosed nfa T) (hS : S ⊆ T) : nfa.epsilon_closure S ⊆ T :=
  closureLoopF_subset_of_closed nfa T hT _ _ S (fun _ hx => mem_stackOf.mp hx) hS

theorem epsilon_closure_closed (nfa : NFA) (S : Finset Nat) :
    EpsClosed nfa (nfa.epsilon_closure S) := by
  apply closureLoopF_closed
  · have : (nfa.allTargets \ S).card ≤ nfa.allTargets.card :=
      Finset.card_le_card Finset.sdiff_subset
    omega
  · intro x hx; exact mem_stackOf.mp hx
  · intro p hp; exact Or.inl (mem_stackOf.mpr hp)

theorem epsilon_closure_eq_of_closed {nfa : NFA} {S : Finset Nat}
    (h : EpsClosed nfa S) : nfa.epsilon_closure S = S :=
  Finset.Subset.antisymm (epsilon_closure_minimal nfa S S h (Finset.Subset.refl S))
    (subset_epsilon_closure nfa S)

theorem epsFree_epsDests {nfa : NFA} (h : nfa.epsFree) (s : Nat) : nfa.epsDests s = [] := by
  unfold NFA.epsDests NFA.deltaList
  rcases hrow : alookup (nfa.row s) none with _ | lst
  · rfl
  · exfalso
    have hmem : ((none : Option Char), lst) ∈ nfa.row s := alookup_mem hrow
    unfold NFA.row at hmem
    rcases htr : alookup nfa.transitions s with _ | row0
    · rw [htr] at hmem; cases hmem
    · rw [htr] at hmem
      exact h (s, row0) (alookup_mem htr) ((none : Option Char), lst) hmem rfl

theorem epsFree_closed {nfa : NFA} (h : nfa.epsFree) (T : Finset Nat) : EpsClosed nfa T := by
  intro p _ q hq
  rw [epsFree_epsDests h] at hq
  cases hq

theorem epsilon_closure_epsFree {nfa : NFA} (h : nfa.epsFree) (S : Finset Nat) :
    nfa.epsilon_closure S = S :=
  epsilon_closure_eq_of_closed (epsFree_closed h S)

theorem epsilon_closure_idem (nfa : NFA) (S : Finset Nat) :
    nfa.epsilon_closure (nfa.epsilon_closure S) = nfa.epsilon_closure S :=
  epsilon_closure_eq_of_closed (epsilon_closure_closed nfa S)

theorem symStepSt_dstates {nfa : NFA} {C : Finset Nat} {a : Char} {st : BuildSt}
    (h : st.processed = st.dstates) :
    (symStepSt nfa C a st).processed = (symStepSt nfa C a st).dstates := by
  unfold symStepSt
  split
  · simp [h]
  · exact h

theorem symStepSt_mono (nfa : NFA) (C : Finset Nat) (a : Char) (st : BuildSt) :
    st.processed ⊆ (symStepSt nfa C a st).processed := by
  unfold symStepSt
  split
  · exact Finset.subset_insert _ _
  · exact Finset.Subset.refl _

theorem symStepSt_move_mem {nfa : NFA} {C : Finset Nat} {a : Char} (st : BuildSt)
    (h : nfa.move C a ≠ ∅) : nfa.move C a ∈ (symStepSt nfa C a st).processed := by
  unfold symStepSt
  split
  · exact Finset.mem_insert_self _ _
  · rename_i hcond
    push_neg at hcond
    by_contra hmem
    exact h (hcond hmem)

theorem symStepSt_processed_sub {nfa : NFA} {C : Finset Nat} {a : Char} {st : BuildSt} :
    ∀ V ∈ (symStepSt nfa C a st).processed,
      V ∈ st.processed ∨ (V = nfa.move C a ∧ V ≠ ∅) := by
  intro V hV
  unfold symStepSt at hV
  split at hV
  · rename_i hcond
    rcases Finset.mem_insert.mp hV with rfl | h2
    · exact Or.inr ⟨rfl, hcond.2⟩
    · exact Or.inl h2
  · exact Or.inl hV

theorem symStepSt_queue_iff (nfa : NFA) (C : Finset Nat) (a : Char) (st : BuildSt) (x : Finset Nat) :
    x ∈ (symStepSt nfa C a st).queue ↔
      x ∈ st.queue ∨ (x ∈ (symStepSt nfa C a st).processed ∧ x ∉ st.processed) := by
  unfold symStepSt
  split
  · rename_i hcond
    simp only [List.mem_append, List.mem_singleton, Finset.mem_insert]
    constructor
    · rintro (h | rfl)
      · exact Or.inl h
      · exact Or.inr ⟨Or.inl rfl, hcond.1⟩
    · rintro (h | ⟨h1 | h1, h2⟩)
      · exact Or.inl h
      · exact Or.inr h1
      · exact absurd h1 h2
  · constructor
    · exact Or.inl
    · rintro (h | ⟨h1, h2⟩)
      · exact h
      · exact absurd h1 h2

theorem symStepSt_len (nfa : NFA) (C : Finset Nat) (a : Char) (st : BuildSt) :
    (symStepSt nfa C a st).queue.length + st.processed.card =
      st.queue.length + (symStepSt nfa C a st).processed.card := by
  unfold symStepSt
  split
  · rename_i hcond
    simp only [List.length_append, List.length_singleton,
      Finset.card_insert_of_not_mem hcond.1]
    omega
  · rfl

theorem symFold_row (nfa : NFA) (C : Finset Nat) : ∀ (syms : List Char) (st : BuildSt),
    (symFold nfa C syms st).rowOut = syms.map (fun a => (a, nfa.move C a)) := by
  intro syms
  induction syms with
  | nil => intro st; rfl
  | cons a rest ih => intro st; rw [symFold, List.map_cons, ih]

theorem symFold_mono (nfa : NFA) (C : Finset Nat) : ∀ (syms : List Char) (st : BuildSt),
    st.processed ⊆ (symFold nfa C syms st).st.processed := by
  intro syms
  induction syms with
  | nil => intro st; exact Finset.Subset.refl _
  | cons a rest ih =>
    intro st
    exact (symStepSt_mono nfa C a st).trans (ih (symStepSt nfa C a st))

theorem symFold_processed_sub (nfa : NFA) (C : Finset Nat) :
    ∀ (syms : List Char) (st : BuildSt),
      ∀ V ∈ (symFold nfa C syms st).st.processed,
        V ∈ st.processed ∨ ∃ a ∈ syms, V = nfa.move C a ∧ V ≠ ∅ := by
  intro syms
  induction syms with
  | nil => intro st V hV; exact Or.inl hV
  | cons a rest ih =>
    intro st V hV
    rcases ih (symStepSt nfa C a st) V hV with h | ⟨b, hb, hV2⟩
    · rcases symStepSt_processed_sub V h with h2 | h2
      · exact Or.inl h2
      · exact Or.inr ⟨a, List.mem_cons_self a rest, h2⟩
    · exact Or.inr ⟨b, List.mem_cons_of_mem a hb, hV2⟩

theorem symFold_move_mem (nfa : NFA) (C : Finset Nat) :
    ∀ (syms : List Char) (st : BuildSt),
      ∀ a ∈ syms, nfa.move C a ≠ ∅ → nfa.move C a ∈ (symFold nfa C syms st).st.processed := by
  intro syms
  induction syms with
  | nil => intro st a ha; cases ha
  | cons b rest ih =>
    intro st a ha hne
    rcases List.mem_cons.mp ha with rfl | h2
    · exact symFold_mono nfa C rest (symStepSt nfa C a st) (symStepSt_move_mem st hne)
    · exact ih (symStepSt nfa C b st) a h2 hne

theorem symFold_queue_iff (nfa : NFA) (C : Finset Nat) :
    ∀ (syms : List Char) (st : BuildSt) (x : Finset Nat),
      x ∈ (symFold nfa C syms st).st.queue ↔
        x ∈ st.queue ∨ (x ∈ (symFold nfa C syms st).st.processed ∧ x ∉ st.processed) := by
  intro syms
  induction syms with
  | nil =>
    intro st x
    constructor
    · exact Or.inl
    · rintro (h | ⟨h1, h2⟩)
      · exact h
      · exact absurd h1 h2
  | cons a rest ih =>
    intro st x
    rw [symFold]
    rw [ih (symStepSt nfa C a st) x]
    rw [symStepSt_queue_iff nfa C a st x]
    constructor
    · rintro ((h | ⟨h1, h2⟩) | ⟨h1, h2⟩)
      · exact Or.inl h
      · refine Or.inr ⟨symFold_mono nfa C rest (symStepSt nfa C a st) h1, h2⟩
      · refine Or.inr ⟨h1, fun hc => h2 (symStepSt_mono nfa C a st hc)⟩
    · rintro (h | ⟨h1, h2⟩)
      · exact Or.inl (Or.inl h)
      · by_cases hx : x ∈ (symStepSt nfa C a st).processed
        · exact Or.inl (Or.inr ⟨hx, h2⟩)
        · exact Or.inr ⟨h1, hx⟩

theorem symFold_len (nfa : NFA) (C : Finset Nat) : ∀ (syms : List Char) (st : BuildSt),
    (symFold nfa C syms st).st.queue.length + st.processed.card =
      st.queue.length + (symFold nfa C syms st).st.processed.card := by
  intro syms
  induction syms with
  | nil => intro st; rfl
  | cons a rest ih =>
    intro st
    rw [symFold]
    dsimp only
    have h1 := ih (symStepSt nfa C a st)
    have h2 := symStepSt_len nfa C a st
    have h3 : st.processed.card ≤ (symStepSt nfa C a st).processed.card :=
      Finset.card_le_card (symStepSt_mono nfa C a st)
    omega

theorem symFold_queue_sub (nfa : NFA) (C : Finset Nat) :
    ∀ (syms : List Char) (st : BuildSt),
      (∀ x ∈ st.queue, x ∈ st.processed) →
      ∀ x ∈ (symFold nfa C syms st).st.queue, x ∈ (symFold nfa C syms st).st.processed := by
  intro syms st hq x hx
  rcases (symFold_queue_iff nfa C syms st x).mp hx with h | ⟨h1, _⟩
  · exact symFold_mono nfa C syms st (hq x h)
  · exact h1

theorem symFold_dstates (nfa : NFA) (C : Finset Nat) : ∀ (syms : List Char) (st : BuildSt),
    st.processed = st.dstates →
    (symFold nfa C syms st).st.processed = (symFold nfa C syms st).st.dstates := by
  intro syms
  induction syms with
  | nil => intro st h; exact h
  | cons a rest ih =>
    intro st h
    exact ih (symStepSt nfa C a st) (symStepSt_dstates h)

theorem buildLoopF_spec (nfa : NFA) :
    ∀ (n : Nat) (q : List (Finset Nat)) (p d : Finset (Finset Nat)),
      2 * (nfa.allTargets.powerset \ p).card + q.length < n →
      (∀ x ∈ q, x ∈ p) →
      d = p →
      (∀ x ∈ p, x ∈ (buildLoopF nfa n q p d).dstates) ∧
      (∀ D ∈ (buildLoopF nfa n q p d).dstates,
        D ∈ p ∨ (D ∈ nfa.allTargets.powerset ∧ D ≠ ∅)) ∧
      (∀ D, (alookup (buildLoopF nfa n q p d).trans D).isSome = true ↔
        (D ∈ q ∨ (D ∈ (buildLoopF nfa n q p d).dstates ∧ D ∉ p))) ∧
      (∀ D row, alookup (buildLoopF nfa n q p d).trans D = some row →
        row = nfa.alphabet.map (fun a => (a, nfa.move D a))) ∧
      (∀ D row, alookup (buildLoopF nfa n q p d).trans D = some row →
        ∀ a ∈ nfa.alphabet, nfa.move D a ≠ ∅ →
          nfa.move D a ∈ (buildLoopF nfa n q p d).dstates) := by
  intro n
  induction n with
  | zero => intro q p d hfuel; omega
  | succ n ih =>
    intro q p d hfuel hqp hpd
    subst d
    cases q with
    | nil =>
      refine ⟨fun x hx => hx, fun D hD => Or.inl hD, ?_, ?_, ?_⟩
      · intro D
        simp [buildLoopF, alookup]
      · intro D row h
        simp [buildLoopF, alookup] at h
      · intro D row h
        simp [buildLoopF, alookup] at h
    | cons C qrest =>
      have hqrest : ∀ x ∈ qrest, x ∈ p := fun x hx => hqp x (List.mem_cons_of_mem C hx)
      have hst_q : ∀ x ∈ (symFold nfa C nfa.alphabet ⟨qrest, p, p⟩).st.queue,
          x ∈ (symFold nfa C nfa.alphabet ⟨qrest, p, p⟩).st.processed :=
        symFold_queue_sub nfa C nfa.alphabet ⟨qrest, p, p⟩ hqrest
      have hmono : p ⊆ (symFold nfa C nfa.alphabet ⟨qrest, p, p⟩).st.processed :=
        symFold_mono nfa C nfa.alphabet ⟨qrest, p, p⟩
      have hpsub : ∀ V ∈ (symFold nfa C nfa.alphabet ⟨qrest, p, p⟩).st.processed,
          V ∈ p ∨ (V ∈ nfa.allTargets.powerset ∧ V ≠ ∅) := by
        intro V hV
        rcases symFold_processed_sub nfa C nfa.alphabet ⟨qrest, p, p⟩ V hV with
          h | ⟨a, _, hVeq, hne⟩
        · exact Or.inl h
        · subst hVeq
          exact Or.inr ⟨Finset.mem_powerset.mpr (move_subset_allTargets nfa C a), hne⟩
      have hnewB : (symFold nfa C nfa.alphabet ⟨qrest, p, p⟩).st.processed \ p ⊆
          nfa.allTargets.powerset := by
        intro V hV
        have hV2 := Finset.mem_sdiff.mp hV
        rcases hpsub V hV2.1 with h | h
        · exact absurd h hV2.2
        · exact h.1
      have hsd := card_sdiff_helper hmono hnewB
      have hlen := symFold_len nfa C nfa.alphabet ⟨qrest, p, p⟩
      dsimp only at hlen
      have hle : p.card ≤ (symFold nfa C nfa.alphabet ⟨qrest, p, p⟩).st.processed.card :=
        Finset.card_le_card hmono
      have hdst : (symFold nfa C nfa.alphabet ⟨qrest, p, p⟩).st.dstates =
          (symFold nfa C nfa.alphabet ⟨qrest, p, p⟩).st.processed :=
        (symFold_dstates nfa C nfa.alphabet ⟨qrest, p, p⟩ rfl).symm
      have hfuel2 : 2 * (nfa.allTargets.powerset \
            (symFold nfa C nfa.alphabet ⟨qrest, p, p⟩).st.processed).card +
          (symFold nfa C nfa.alphabet ⟨qrest, p, p⟩).st.queue.length < n := by
        simp only [List.length_cons] at hfuel
        omega
      obtain ⟨ih1, ih2, ih3, ih4, ih5⟩ := ih
        (symFold nfa C nfa.alphabet ⟨qrest, p, p⟩).st.queue
        (symFold nfa C nfa.alphabet ⟨qrest, p, p⟩).st.processed
        (symFold nfa C nfa.alphabet ⟨qrest, p, p⟩).st.dstates hfuel2 hst_q hdst
      rw [buildLoopF]
      dsimp only
      refine ⟨?_, ?_, ?_, ?_, ?_⟩
      · exact fun x hx => ih1 x (hmono hx)
      · intro D hD
        rcases ih2 D hD with h | h
        · exact hpsub D h
        · exact Or.inr h
      · intro D
        rw [alookup]
        dsimp only
        by_cases hCD : C = D
        · subst hCD
          rw [if_pos rfl]
          simp only [Option.isSome_some, true_iff]
          exact Or.inl (List.mem_cons_self C qrest)
        · rw [if_neg hCD, ih3 D]
          constructor
          · rintro (h | ⟨h1, h2⟩)
            · rcases (symFold_queue_iff nfa C nfa.alphabet ⟨qrest, p, p⟩ D).mp h with
                h2 | ⟨h3, h4⟩
              · exact Or.inl (List.mem_cons_of_mem C h2)
              · exact Or.inr ⟨ih1 D h3, h4⟩
            · exact Or.inr ⟨h1, fun hp => h2 (hmono hp)⟩
          · rintro (h | ⟨h1, h2⟩)
            · rcases List.mem_cons.mp h with rfl | h2
              · exact absurd rfl hCD
              · exact Or.inl
                  ((symFold_queue_iff nfa C nfa.alphabet ⟨qrest, p, p⟩ D).mpr (Or.inl h2))
            · by_cases hDp : D ∈ (symFold nfa C nfa.alphabet ⟨qrest, p, p⟩).st.processed
              · exact Or.inl
                  ((symFold_queue_iff nfa C nfa.alphabet ⟨qrest, p, p⟩ D).mpr
                    (Or.inr ⟨hDp, h2⟩))
              · exact Or.inr ⟨h1, hDp⟩
      · intro D row h
        rw [alookup] at h
        dsimp only at h
        by_cases hCD : C = D
        · subst hCD
          rw [if_pos rfl] at h
          have hrow : row = (symFold nfa C nfa.alphabet ⟨qrest, p, p⟩).rowOut :=
            (Option.some_injective _ h).symm
          rw [hrow, symFold_row]
        · rw [if_neg hCD] at h
          exact ih4 D row h
      · intro D row h a ha hne
        rw [alookup] at h
        dsimp only at h
        by_cases hCD : C = D
        · subst hCD
          exact ih1 (nfa.move C a)
            (symFold_move_mem nfa C nfa.alphabet ⟨qrest, p, p⟩ a ha hne)
        · rw [if_neg hCD] at h
          exact ih5 D row h a ha hne

theorem thompson_master (nfa : NFA) :
    ({nfa.start} : Finset Nat) ∈ (thompson_algorithm_visual nfa).1.states ∧
    (∀ D ∈ (thompson_algorithm_visual nfa).1.states,
      D = {nfa.start} ∨ (D ∈ nfa.allTargets.powerset ∧ D ≠ ∅)) ∧
    (∀ D, (alookup (thompson_algorithm_visual nfa).1.transitions D).isSome = true ↔
      D ∈ (thompson_algorithm_visual nfa).1.states) ∧
    (∀ D row, alookup (thompson_algorithm_visual nfa).1.transitions D = some row →
      row = nfa.alphabet.map (fun a => (a, nfa.move D a))) ∧
    (∀ D row, alookup (thompson_algorithm_visual nfa).1.transitions D = some row →
      ∀ a ∈ nfa.alphabet, nfa.move D a ≠ ∅ →
        nfa.move D a ∈ (thompson_algorithm_visual nfa).1.states) := by
  have hfuel : 2 * (nfa.allTargets.powerset \
        ({({nfa.start} : Finset Nat)} : Finset (Finset Nat))).card +
      [({nfa.start} : Finset Nat)].length < 2 * nfa.allTargets.powerset.card + 2 := by
    have hcard : (nfa.allTargets.powerset \
        ({({nfa.start} : Finset Nat)} : Finset (Finset Nat))).card ≤
          nfa.allTargets.powerset.card :=
      Finset.card_le_card Finset.sdiff_subset
    simp only [List.length_singleton]
    omega
  have hq : ∀ x ∈ [({nfa.start} : Finset Nat)],
      x ∈ ({({nfa.start} : Finset Nat)} : Finset (Finset Nat)) := by
    intro x hx
    rw [List.mem_singleton.mp hx]
    exact Finset.mem_singleton_self _
  obtain ⟨m1, m2, m3, m4, m5⟩ := buildLoopF_spec nfa (2 * nfa.allTargets.powerset.card + 2)
    [{nfa.start}] {{nfa.start}} {{nfa.start}} hfuel hq rfl
  refine ⟨m1 {nfa.start} (Finset.mem_singleton_self _), ?_, ?_, m4, m5⟩
  · intro D hD
    rcases m2 D hD with h | h
    · exact Or.inl (Finset.mem_singleton.mp h)
    · exact Or.inr h
  · intro D
    constructor
    · intro h
      rcases (m3 D).mp h with h2 | ⟨h2, _⟩
      · rw [List.mem_singleton.mp h2]
        exact m1 {nfa.start} (Finset.mem_singleton_self _)
      · exact h2
    · intro h
      by_cases hD : D = {nfa.start}
      · exact (m3 D).mpr (Or.inl (List.mem_singleton.mpr hD))
      · exact (m3 D).mpr (Or.inr ⟨h, fun hmem => hD (Finset.mem_singleton.mp hmem)⟩)

theorem thompson_start_eq (nfa : NFA) :
    (thompson_algorithm_visual nfa).1.start = {nfa.start} := rfl

theorem thompson_alphabet_eq (nfa : NFA) :
    (thompson_algorithm_visual nfa).1.alphabet = nfa.alphabet := rfl

theorem thompson_start_mem (nfa : NFA) :
    ({nfa.start} : Finset Nat) ∈ (thompson_algorithm_visual nfa).1.states :=
  (thompson_master nfa).1

theorem thompson_final_iff (nfa : NFA) (D : Finset Nat) :
    D ∈ (thompson_algorithm_visual nfa).1.final ↔
      D ∈ (thompson_algorithm_visual nfa).1.states ∧ (D ∩ nfa.final).Nonempty :=
  Finset.mem_filter

theorem thompson_empty_not_mem (nfa : NFA) :
    (∅ : Finset Nat) ∉ (thompson_algorithm_visual nfa).1.states := by
  intro h
  rcases (thompson_master nfa).2.1 ∅ h with h2 | ⟨_, h3⟩
  · exact Finset.singleton_ne_empty nfa.start h2.symm
  · exact h3 rfl

theorem thompson_empty_not_final (nfa : NFA) :
    (∅ : Finset Nat) ∉ (thompson_algorithm_visual nfa).1.final := by
  intro h
  exact thompson_empty_not_mem nfa ((thompson_final_iff nfa ∅).mp h).1

theorem thompson_trans_total (nfa : NFA) (D : Finset Nat) (a : Char)
    (hD : D ∈ (thompson_algorithm_visual nfa).1.states) (ha : a ∈ nfa.alphabet) :
    dfaLookup (thompson_algorithm_visual nfa).1.transitions D a = some (nfa.move D a) := by
  obtain ⟨_, _, m3, m4, _⟩ := thompson_master nfa
  have hsome := (m3 D).mpr hD
  rcases hcase : alookup (thompson_algorithm_visual nfa).1.transitions D with _ | row
  · rw [hcase] at hsome; cases hsome
  · have hrow := m4 D row hcase
    unfold dfaLookup
    rw [hcase, hrow]
    exact alookup_map_of_mem _ ha

theorem thompson_lookup_some {nfa : NFA} {D : Finset Nat} {a : Char} {V : Finset Nat}
    (h : dfaLookup (thompson_algorithm_visual nfa).1.transitions D a = some V) :
    V = nfa.move D a ∧ D ∈ (thompson_algorithm_visual nfa).1.states ∧ a ∈ nfa.alphabet := by
  obtain ⟨_, _, m3, m4, _⟩ := thompson_master nfa
  unfold dfaLookup at h
  rcases hcase : alookup (thompson_algorithm_visual nfa).1.transitions D with _ | row
  · rw [hcase] at h; cases h
  · rw [hcase] at h
    have hD : D ∈ (thompson_algorithm_visual nfa).1.states := (m3 D).mp (by rw [hcase]; rfl)
    have hrow := m4 D row hcase
    subst hrow
    obtain ⟨ha, hV⟩ := alookup_map_eq_some h
    exact ⟨hV, hD, ha⟩

theorem thompson_move_mem (nfa : NFA) (D : Finset Nat) (a : Char)
    (hD : D ∈ (thompson_algorithm_visual nfa).1.states) (ha : a ∈ nfa.alphabet)
    (hne : nfa.move D a ≠ ∅) :
    nfa.move D a ∈ (thompson_algorithm_visual nfa).1.states := by
  obtain ⟨_, _, m3, _, m5⟩ := thompson_master nfa
  have hsome := (m3 D).mpr hD
  rcases hcase : alookup (thompson_algorithm_visual nfa).1.transitions D with _ | row
  · rw [hcase] at hsome; cases hsome
  · exact m5 D row hcase a ha hne

theorem thompson_lookup_none {nfa : NFA} {D : Finset Nat}
    (h : D ∉ (thompson_algorithm_visual nfa).1.states) (a : Char) :
    dfaLookup (thompson_algorithm_visual nfa).1.transitions D a = none := by
  obtain ⟨_, _, m3, _, _⟩ := thompson_master nfa
  rcases hcase : alookup (thompson_algorithm_visual nfa).1.transitions D with _ | row
  · unfold dfaLookup; rw [hcase]
  · exact absurd ((m3 D).mp (by rw [hcase]; rfl)) h

theorem thompson_states_sub (nfa : NFA) :
    ∀ D ∈ (thompson_algorithm_visual nfa).1.states,
      D = {nfa.start} ∨ D ⊆ nfa.allTargets := by
  intro D hD
  rcases (thompson_master nfa).2.1 D hD with h | ⟨h, _⟩
  · exact Or.inl h
  · exact Or.inr (Finset.mem_powerset.mp h)

theorem acceptsGo_trace (dfa : DFA) : ∀ (w : List Char) (st : Finset Nat)
    (acc : List (Finset Nat)), ∃ t, (dfa.acceptsGo st acc w).2 = acc ++ t := by
  intro w
  induction w with
  | nil => intro st acc; exact ⟨[], (List.append_nil acc).symm⟩
  | cons c rest ih =>
    intro st acc
    rw [DFA.acceptsGo]
    by_cases hc : c ∉ dfa.alphabet
    · rw [if_pos hc]; exact ⟨[], (List.append_nil acc).symm⟩
    · rw [if_neg hc]
      rcases hlook : dfaLookup dfa.transitions st c with _ | s2
      · exact ⟨[], (List.append_nil acc).symm⟩
      · obtain ⟨t, ht⟩ := ih s2 (acc ++ [s2])
        exact ⟨[s2] ++ t, by rw [ht, List.append_assoc]⟩

theorem acceptsGo_trace_mem (dfa : DFA) : ∀ (w : List Char) (st : Finset Nat)
    (acc : List (Finset Nat)) (x : Finset Nat),
    x ∈ (dfa.acceptsGo st acc w).2 →
    x ∈ acc ∨ ∃ D a, dfaLookup dfa.transitions D a = some x := by
  intro w
  induction w with
  | nil => intro st acc x hx; exact Or.inl hx
  | cons c rest ih =>
    intro st acc x hx
    rw [DFA.acceptsGo] at hx
    by_cases hc : c ∉ dfa.alphabet
    · rw [if_pos hc] at hx; exact Or.inl hx
    · rw [if_neg hc] at hx
      rcases hlook : dfaLookup dfa.transitions st c with _ | s2
      · rw [hlook] at hx; exact Or.inl hx
      · rw [hlook] at hx
        rcases ih s2 (acc ++ [s2]) x hx with h | h
        · rcases List.mem_append.mp h with h2 | h2
          · exact Or.inl h2
          · rw [List.mem_singleton.mp h2]
            exact Or.inr ⟨st, c, hlook⟩
        · exact Or.inr h

theorem acceptsGo_bad_char (dfa : DFA) (c : Char) (hc : c ∉ dfa.alphabet) :
    ∀ (w1 w2 : List Char) (st : Finset Nat) (acc : List (Finset Nat)),
      (dfa.acceptsGo st acc (w1 ++ c :: w2)).1 = false ∧
      (dfa.acceptsGo st acc (w1 ++ c :: w2)).2.length ≤ acc.length + w1.length := by
  intro w1
  induction w1 with
  | nil =>
    intro w2 st acc
    rw [List.nil_append, DFA.acceptsGo, if_pos hc]
    exact ⟨rfl, by simp⟩
  | cons x rest ih =>
    intro w2 st acc
    rw [List.cons_append, DFA.acceptsGo]
    by_cases hx : x ∉ dfa.alphabet
    · rw [if_pos hx]
      refine ⟨rfl, ?_⟩
      simp only [List.length_cons]
      omega
    · rw [if_neg hx]
      rcases hlook : dfaLookup dfa.transitions st x with _ | s2
      · refine ⟨rfl, ?_⟩
        show acc.length ≤ acc.length + (x :: rest).length
        simp only [List.length_cons]
        omega
      · obtain ⟨h1, h2⟩ := ih w2 s2 (acc ++ [s2])
        refine ⟨h1, ?_⟩
        show (dfa.acceptsGo s2 (acc ++ [s2]) (rest ++ c :: w2)).2.length ≤
          acc.length + (x :: rest).length
        simp only [List.length_append, List.length_singleton, List.length_nil,
          List.length_cons] at h2 ⊢
        omega

theorem nfa_acceptsGo_bad_char (nfa : NFA) (c : Char) (hc : c ∉ nfa.alphabet) :
    ∀ (w1 w2 : List Char) (current : Finset Nat),
      nfa.acceptsGo current (w1 ++ c :: w2) = false := by
  intro w1
  induction w1 with
  | nil => intro w2 current; rw [List.nil_append, NFA.acceptsGo, if_pos hc]
  | cons x rest ih =>
    intro w2 current
    rw [List.cons_append, NFA.acceptsGo]
    by_cases hx : x ∉ nfa.alphabet
    · rw [if_pos hx]
    · rw [if_neg hx]
      by_cases hne : nfa.epsilon_closure (nfa.move current x) = ∅
      · rw [if_pos hne]
      · rw [if_neg hne]
        exact ih w2 (nfa.epsilon_closure (nfa.move current x))

theorem thompson_acceptsGo_empty (nfa : NFA) : ∀ (w : List Char) (acc : List (Finset Nat)),
    ((thompson_algorithm_visual nfa).1.acceptsGo ∅ acc w).1 = false := by
  intro w
  induction w with
  | nil =>
    intro acc
    rw [DFA.acceptsGo]
    exact decide_eq_false (thompson_empty_not_final nfa)
  | cons c rest ih =>
    intro acc
    rw [DFA.acceptsGo]
    by_cases hc : c ∉ (thompson_algorithm_visual nfa).1.alphabet
    · rw [if_pos hc]
    · rw [if_neg hc]
      rw [thompson_lookup_none (thompson_empty_not_mem nfa) c]

theorem acceptsGo_equiv (nfa : NFA) (heps : nfa.epsFree) :
    ∀ (w : List Char) (st : Finset Nat) (acc : List (Finset Nat)),
      st ∈ (thompson_algorithm_visual nfa).1.states →
      nfa.acceptsGo st w = ((thompson_algorithm_visual nfa).1.acceptsGo st acc w).1 := by
  intro w
  induction w with
  | nil =>
    intro st acc hst
    rw [NFA.acceptsGo, DFA.acceptsGo]
    refine decide_eq_decide.mpr ?_
    constructor
    · intro h; exact (thompson_final_iff nfa st).mpr ⟨hst, h⟩
    · intro h; exact ((thompson_final_iff nfa st).mp h).2
  | cons c rest ih =>
    intro st acc hst
    rw [NFA.acceptsGo, DFA.acceptsGo, thompson_alphabet_eq nfa]
    by_cases hc : c ∉ nfa.alphabet
    · rw [if_pos hc, if_pos hc]
    · rw [if_neg hc, if_neg hc]
      rw [epsilon_closure_epsFree heps]
      rw [thompson_trans_total nfa st c hst (not_not.mp hc)]
      by_cases hne : nfa.move st c = ∅
      · rw [if_pos hne, hne]
        exact (thompson_acceptsGo_empty nfa rest (acc ++ [∅])).symm
      · rw [if_neg hne]
        exact ih (nfa.move st c) (acc ++ [nfa.move st c])
          (thompson_move_mem nfa st c hst (not_not.mp hc) hne)

theorem acceptsGo_deadIdx_none (dfa : DFA) :
    ∀ (w : List Char) (st : Finset Nat) (acc : List (Finset Nat)) (i : Nat),
      acc.getLast? = some st → deadIdxGo dfa st i w = none →
      (dfa.acceptsGo st acc w).2.length = acc.length + w.length ∧
      ((dfa.acceptsGo st acc w).1 = true ↔
        ∃ s, (dfa.acceptsGo st acc w).2.getLast? = some s ∧ s ∈ dfa.final) := by
  intro w
  induction w with
  | nil =>
    intro st acc i hlast _
    rw [DFA.acceptsGo]
    refine ⟨by simp, ?_⟩
    constructor
    · intro h
      exact ⟨st, hlast, of_decide_eq_true h⟩
    · rintro ⟨s, hs, hsf⟩
      have : s = st := Option.some_injective _ (hs.symm.trans hlast)
      exact decide_eq_true (this ▸ hsf)
  | cons c rest ih =>
    intro st acc i hlast hdead
    rw [deadIdxGo] at hdead
    by_cases hc : c ∉ dfa.alphabet
    · rw [if_pos hc] at hdead; cases hdead
    · rw [if_neg hc] at hdead
      rcases hlook : dfaLookup dfa.transitions st c with _ | s2
      · rw [hlook] at hdead; cases hdead
      · rw [hlook] at hdead
        rw [DFA.acceptsGo, if_neg hc, hlook]
        obtain ⟨h1, h2⟩ := ih s2 (acc ++ [s2]) (i + 1) (List.getLast?_concat acc) hdead
        refine ⟨?_, h2⟩
        rw [h1]
        simp only [List.length_append, List.length_singleton, List.length_nil,
          List.length_cons]
        omega

theorem acceptsGo_deadIdx_some (dfa : DFA) :
    ∀ (w : List Char) (st : Finset Nat) (acc : List (Finset Nat)) (i j : Nat),
      deadIdxGo dfa st i w = some j →
      (dfa.acceptsGo st acc w).1 = false ∧
      (dfa.acceptsGo st acc w).2.length + i ≤ acc.length + j := by
  intro w
  induction w with
  | nil => intro st acc i j h; rw [deadIdxGo] at h; cases h
  | cons c rest ih =>
    intro st acc i j hdead
    rw [deadIdxGo] at hdead
    rw [DFA.acceptsGo]
    by_cases hc : c ∉ dfa.alphabet
    · rw [if_pos hc] at hdead
      have hij : i = j := Option.some_injective _ hdead
      rw [if_pos hc]
      refine ⟨rfl, ?_⟩
      show acc.length + i ≤ acc.length + j
      omega
    · rw [if_neg hc] at hdead
      rw [if_neg hc]
      rcases hlook : dfaLookup dfa.transitions st c with _ | s2
      · rw [hlook] at hdead
        have hij : i = j := Option.some_injective _ hdead
        refine ⟨rfl, ?_⟩
        show acc.length + i ≤ acc.length + j
        omega
      · rw [hlook] at hdead
        obtain ⟨h1, h2⟩ := ih s2 (acc ++ [s2]) (i + 1) j hdead
        refine ⟨h1, ?_⟩
        show (dfa.acceptsGo s2 (acc ++ [s2]) rest).2.length + i ≤ acc.length + j
        simp only [List.length_append, List.length_singleton, List.length_nil,
          List.length_cons] at h2
        omega

/-- Claim C1 counterexample: the claimed equivalence fails on an NFA with an
epsilon transition out of the start state.  On the empty word the NFA
simulation accepts (the epsilon closure of the start reaches the accepting
state) while the converted DFA rejects (its start state is the bare
singleton, which is not accepting). -/
theorem C1_counterexample :
    nfaEps.accepts [] = true ∧
    ((thompson_algorithm_visual nfaEps).1.accepts []).1 = false := by
  constructor
  · decide
  · decide

/-- Claim C1 (amended): for every NFA without epsilon transitions and every
word, the NFA simulation and the simulation of the converted DFA agree:
`simulate_nfa(nfa, w)` equals the boolean component of `simulate_dfa` on
the DFA produced by `convert(nfa)`. -/
theorem C1_language_equiv (nfa : NFA) (heps : nfa.epsFree) (w : List Char) :
    nfa.accepts w = ((thompson_algorithm_visual nfa).1.accepts w).1 := by
  unfold NFA.accepts DFA.accepts
  rw [thompson_start_eq, epsilon_closure_epsFree heps]
  exact acceptsGo_equiv nfa heps w {nfa.start} [{nfa.start}] (thompson_start_mem nfa)

/-- Claim C1 witness: the equivalence theorem applied to the canonical
(epsilon-free) automaton and the word aaa. -/
theorem C1_witness :
    nfaC.epsFree ∧
    nfaC.accepts ['a', 'a', 'a'] =
      ((thompson_algorithm_visual nfaC).1.accepts ['a', 'a', 'a']).1 :=
  ⟨by decide, C1_language_equiv nfaC (by decide) ['a', 'a', 'a']⟩

/-- Claim C2 counterexample: on an NFA with an epsilon transition out of
the start state, the DFA start state produced by the conversion is not the
epsilon closure of the singleton of the NFA start (it is the bare
singleton). -/
theorem C2_counterexample :
    (thompson_algorithm_visual nfaEps).1.start ≠
      nfaEps.epsilon_closure {nfaEps.start} := by
  decide

/-- Claim C2 (amended): the start state of the DFA returned by the
conversion is the bare singleton of the NFA start state, with no epsilon
closure applied; for an NFA without epsilon transitions this coincides
with the epsilon closure of that singleton. -/
theorem C2_start_state (nfa : NFA) :
    (thompson_algorithm_visual nfa).1.start = {nfa.start} ∧
    (nfa.epsFree →
      (thompson_algorithm_visual nfa).1.start = nfa.epsilon_closure {nfa.start}) :=
  ⟨thompson_start_eq nfa,
   fun h => by rw [thompson_start_eq, epsilon_closure_epsFree h]⟩

/-- Claim C2 witness: the amended statement instantiated at the canonical
(epsilon-free) automaton. -/
theorem C2_witness :
    (thompson_algorithm_visual nfaC).1.start = {nfaC.start} ∧
    (thompson_algorithm_visual nfaC).1.start = nfaC.epsilon_closure {nfaC.start} :=
  ⟨(C2_start_state nfaC).1, (C2_start_state nfaC).2 (by decide)⟩

/-- Claim C3: for every discovered DFA state `C` and alphabet symbol `a`,
the recorded DFA transition from `C` on `a` is exactly the raw union of
`delta(s, a)` over `s ∈ C` (`nfa.move C a`), with no epsilon closure
applied; and the per-symbol loop body enqueues and marks that union as
discovered exactly when it is non-empty and not previously discovered,
leaving the loop state unchanged otherwise. -/
theorem C3_transitions (nfa : NFA) :
    (∀ C ∈ (thompson_algorithm_visual nfa).1.states, ∀ a ∈ nfa.alphabet,
      dfaLookup (thompson_algorithm_visual nfa).1.transitions C a =
        some (nfa.move C a)) ∧
    (∀ (C : Finset Nat) (a : Char) (st : BuildSt),
      (symStep nfa C a st).2 =
        if nfa.move C a ∉ st.processed ∧ nfa.move C a ≠ ∅ then
          ⟨st.queue ++ [nfa.move C a], insert (nfa.move C a) st.processed,
           insert (nfa.move C a) st.dstates⟩
        else st) :=
  ⟨fun C hC a ha => thompson_trans_total nfa C a hC ha, fun _ _ _ => rfl⟩

/-- Claim C3 witness: the transition recorded for the start state of the
canonical automaton on the symbol a is the raw union of its delta sets. -/
theorem C3_witness :
    dfaLookup (thompson_algorithm_visual nfaC).1.transitions {1} 'a' =
      some (nfaC.move {1} 'a') :=
  (C3_transitions nfaC).1 {1} (by decide) 'a' (by decide)

/-- Claim C4: for every NFA and state set `S`, `epsilon_closure(S)` is the
smallest superset of `S` closed under epsilon transitions, and for an NFA
with no epsilon transitions it equals `S`. -/
theorem C4_epsilon_closure (nfa : NFA) (S : Finset Nat) :
    S ⊆ nfa.epsilon_closure S ∧
    EpsClosed nfa (nfa.epsilon_closure S) ∧
    (∀ T : Finset Nat, S ⊆ T → EpsClosed nfa T → nfa.epsilon_closure S ⊆ T) ∧
    (nfa.epsFree → nfa.epsilon_closure S = S) :=
  ⟨subset_epsilon_closure nfa S, epsilon_closure_closed nfa S,
   fun T hS hT => epsilon_closure_minimal nfa S T hT hS,
   fun h => epsilon_closure_epsFree h S⟩

/-- Claim C4 witness: the closure properties instantiated on the
epsilon automaton (minimality against the concrete closed superset
`{1, 2}`) and on the epsilon-free canonical automaton. -/
theorem C4_witness :
    ({1} : Finset Nat) ⊆ nfaEps.epsilon_closure {1} ∧
    EpsClosed nfaEps (nfaEps.epsilon_closure {1}) ∧
    nfaEps.epsilon_closure {1} ⊆ {1, 2} ∧
    nfaC.epsilon_closure {1} = {1} :=
  ⟨(C4_epsilon_closure nfaEps {1}).1, (C4_epsilon_closure nfaEps {1}).2.1,
   (C4_epsilon_closure nfaEps {1}).2.2.1 {1, 2} (by decide) (by decide),
   (C4_epsilon_closure nfaC {1}).2.2.2 (by decide)⟩

/-- Claim C5: for every NFA satisfying the data-model invariants (the
start state belongs to the declared state set and every transition
destination does too), the converted DFA has at most `2 ^ |NFA.states|`
states: every discovered subset is a subset of `NFA.states`. -/
theorem C5_state_bound (nfa : NFA) (hstart : nfa.start ∈ nfa.states)
    (htarg : nfa.allTargets ⊆ nfa.states) :
    (thompson_algorithm_visual nfa).1.states.card ≤ 2 ^ nfa.states.card := by
  have hsub : (thompson_algorithm_visual nfa).1.states ⊆ nfa.states.powerset := by
    intro D hD
    rcases thompson_states_sub nfa D hD with h | h
    · rw [h]
      exact Finset.mem_powerset.mpr (Finset.singleton_subset_iff.mpr hstart)
    · exact Finset.mem_powerset.mpr (h.trans htarg)
  calc (thompson_algorithm_visual nfa).1.states.card
      ≤ nfa.states.powerset.card := Finset.card_le_card hsub
    _ = 2 ^ nfa.states.card := Finset.card_powerset _

/-- Claim C5 witness: the powerset bound instantiated at the canonical
automaton (8 DFA states against the bound 16). -/
theorem C5_witness :
    nfaC.start ∈ nfaC.states ∧ nfaC.allTargets ⊆ nfaC.states ∧
    (thompson_algorithm_visual nfaC).1.states.card ≤ 2 ^ nfaC.states.card :=
  ⟨by decide, by decide, C5_state_bound nfaC (by decide) (by decide)⟩

/-- Claim C6: for every DFA and word, the returned trace starts with the
DFA start state; when no dead end occurs the trace has length exactly
`n + 1` and acceptance holds exactly when the last visited state is
accepting; when the first dead end occurs at position `i` the verdict is
reject and the trace, truncated at the point of failure, has length at
most `i + 1`. -/
theorem C6_trace (dfa : DFA) (w : List Char) :
    (∃ t, (dfa.accepts w).2 = dfa.start :: t) ∧
    (deadIdx dfa w = none →
      (dfa.accepts w).2.length = w.length + 1 ∧
      ((dfa.accepts w).1 = true ↔
        ∃ s, (dfa.accepts w).2.getLast? = some s ∧ s ∈ dfa.final)) ∧
    (∀ i, deadIdx dfa w = some i →
      (dfa.accepts w).1 = false ∧ (dfa.accepts w).2.length ≤ i + 1) := by
  unfold DFA.accepts
  refine ⟨?_, ?_, ?_⟩
  · obtain ⟨t, ht⟩ := acceptsGo_trace dfa w dfa.start [dfa.start]
    exact ⟨t, ht⟩
  · intro h
    obtain ⟨h1, h2⟩ := acceptsGo_deadIdx_none dfa w dfa.start [dfa.start] 0 rfl h
    refine ⟨?_, h2⟩
    rw [h1]
    simp only [List.length_singleton]
    omega
  · intro i h
    obtain ⟨h1, h2⟩ := acceptsGo_deadIdx_some dfa w dfa.start [dfa.start] 0 i h
    refine ⟨h1, ?_⟩
    simp only [List.length_singleton] at h2
    omega

/-- Claim C6 witness: the trace invariants instantiated on a dead-end-free
run (canonical automaton, word aaa, trace length 4) and on a run with a
dead end at position 1 (the automaton with an empty-subset sink, word ba,
trace length at most 2). -/
theorem C6_witness :
    ((thompson_algorithm_visual nfaC).1.accepts ['a', 'a', 'a']).2.length = 4 ∧
    ((thompson_algorithm_visual nfa2).1.accepts ['b', 'a']).1 = false ∧
    ((thompson_algorithm_visual nfa2).1.accepts ['b', 'a']).2.length ≤ 2 :=
  ⟨((C6_trace (thompson_algorithm_visual nfaC).1 ['a', 'a', 'a']).2.1 (by decide)).1,
   ((C6_trace (thompson_algorithm_visual nfa2).1 ['b', 'a']).2.2 1 (by decide)).1,
   ((C6_trace (thompson_algorithm_visual nfa2).1 ['b', 'a']).2.2 1 (by decide)).2⟩

/-- Claim C7: a word containing a character outside the alphabet is
rejected by the NFA simulation, and rejected by the DFA simulation with
the trace accumulated by the time that character is reached (length at
most the prefix length plus one); both simulations return a verdict
rather than failing. -/
theorem C7_bad_symbol (nfa : NFA) (dfa : DFA) (w1 w2 : List Char) (c : Char) :
    (c ∉ nfa.alphabet → nfa.accepts (w1 ++ c :: w2) = false) ∧
    (c ∉ dfa.alphabet →
      (dfa.accepts (w1 ++ c :: w2)).1 = false ∧
      (dfa.accepts (w1 ++ c :: w2)).2.length ≤ w1.length + 1) := by
  constructor
  · intro hc
    unfold NFA.accepts
    exact nfa_acceptsGo_bad_char nfa c hc w1 w2 _
  · intro hc
    unfold DFA.accepts
    obtain ⟨h1, h2⟩ := acceptsGo_bad_char dfa c hc w1 w2 dfa.start [dfa.start]
    refine ⟨h1, ?_⟩
    simp only [List.length_singleton] at h2
    omega

/-- Claim C7 witness: both rejection facts instantiated at the canonical
automaton with the word ax, whose second character is outside the
alphabet. -/
theorem C7_witness :
    nfaC.accepts ['a', 'x'] = false ∧
    ((thompson_algorithm_visual nfaC).1.accepts ['a', 'x']).1 = false ∧
    ((thompson_algorithm_visual nfaC).1.accepts ['a', 'x']).2.length ≤ 2 :=
  ⟨(C7_bad_symbol nfaC (thompson_algorithm_visual nfaC).1 ['a'] [] 'x').1 (by decide),
   ((C7_bad_symbol nfaC (thompson_algorithm_visual nfaC).1 ['a'] [] 'x').2 (by decide)).1,
   ((C7_bad_symbol nfaC (thompson_algorithm_visual nfaC).1 ['a'] [] 'x').2 (by decide)).2⟩

/-- Claim C8: epsilon closure is idempotent: applying it twice gives the
same set as applying it once, for every NFA and every state set. -/
theorem C8_idempotent (nfa : NFA) (S : Finset Nat) :
    nfa.epsilon_closure (nfa.epsilon_closure S) = nfa.epsilon_closure S :=
  epsilon_closure_idem nfa S

/-- Claim C9 counterexample: the word abab is rejected, not accepted, by
both simulations on the canonical automaton (its third-from-last
character is b, so the automaton's language excludes it; the list of
accepted examples printed by `main()` is wrong about abab). -/
theorem C9_counterexample :
    nfaC.accepts ['a', 'b', 'a', 'b'] = false ∧
    ((thompson_algorithm_visual nfaC).1.accepts ['a', 'b', 'a', 'b']).1 = false := by
  constructor
  · decide
  · decide

/-- Claim C9 (amended): on the canonical automaton, aaa is accepted by
both simulations, bbb is rejected by both, ab is rejected by both, abab
is rejected (not accepted) by both, and the converted DFA has between 1
and 16 states. -/
theorem C9_canonical :
    nfaC.accepts ['a', 'a', 'a'] = true ∧
    ((thompson_algorithm_visual nfaC).1.accepts ['a', 'a', 'a']).1 = true ∧
    nfaC.accepts ['b', 'b', 'b'] = false ∧
    ((thompson_algorithm_visual nfaC).1.accepts ['b', 'b', 'b']).1 = false ∧
    nfaC.accepts ['a', 'b'] = false ∧
    ((thompson_algorithm_visual nfaC).1.accepts ['a', 'b']).1 = false ∧
    nfaC.accepts ['a', 'b', 'a', 'b'] = false ∧
    ((thompson_algorithm_visual nfaC).1.accepts ['a', 'b', 'a', 'b']).1 = false ∧
    1 ≤ (thompson_algorithm_visual nfaC).1.states.card ∧
    (thompson_algorithm_visual nfaC).1.states.card ≤ 16 := by
  refine ⟨by decide, by decide, by decide, by decide, by decide,
    by decide, by decide, by decide, by decide, by decide⟩

/-- Claim C10: the converted DFA's transition map is total over its
discovered states (with the raw-union value), every transition
destination is a discovered state or the empty subset, the empty subset
is never a discovered state and never accepting, no transition is defined
out of the empty subset, and every state in a returned trace is either a
discovered state or the empty subset. -/
theorem C10_transition_totality (nfa : NFA) :
    (∀ C ∈ (thompson_algorithm_visual nfa).1.states,
      ∀ a ∈ (thompson_algorithm_visual nfa).1.alphabet,
        dfaLookup (thompson_algorithm_visual nfa).1.transitions C a =
          some (nfa.move C a)) ∧
    (∀ (C : Finset Nat) (a : Char) (V : Finset Nat),
      dfaLookup (thompson_algorithm_visual nfa).1.transitions C a = some V →
      V ∈ (thompson_algorithm_visual nfa).1.states ∨ V = ∅) ∧
    (∅ : Finset Nat) ∉ (thompson_algorithm_visual nfa).1.states ∧
    (∅ : Finset Nat) ∉ (thompson_algorithm_visual nfa).1.final ∧
    (∀ a, dfaLookup (thompson_algorithm_visual nfa).1.transitions ∅ a = none) ∧
    (∀ w x, x ∈ ((thompson_algorithm_visual nfa).1.accepts w).2 →
      x ∈ (thompson_algorithm_visual nfa).1.states ∨ x = ∅) := by
  refine ⟨?_, ?_, thompson_empty_not_mem nfa, thompson_empty_not_final nfa, ?_, ?_⟩
  · intro C hC a ha
    exact thompson_trans_total nfa C a hC ha
  · intro C a V h
    obtain ⟨hV, hC, ha⟩ := thompson_lookup_some h
    by_cases hne : V = ∅
    · exact Or.inr hne
    · refine Or.inl ?_
      rw [hV]
      exact thompson_move_mem nfa C a hC ha (hV ▸ hne)
  · exact thompson_lookup_none (thompson_empty_not_mem nfa)
  · intro w x hx
    unfold DFA.accepts at hx
    rcases acceptsGo_trace_mem (thompson_algorithm_visual nfa).1 w
        (thompson_algorithm_visual nfa).1.start
        [(thompson_algorithm_visual nfa).1.start] x hx with h | ⟨D, a, hl⟩
    · refine Or.inl ?_
      rw [List.mem_singleton.mp h, thompson_start_eq]
      exact thompson_start_mem nfa
    · obtain ⟨hV, hD, ha⟩ := thompson_lookup_some hl
      by_cases hne : x = ∅
      · exact Or.inr hne
      · refine Or.inl ?_
        rw [hV]
        exact thompson_move_mem nfa D a hD ha (hV ▸ hne)

/-- Claim C10 witness: totality at a transition whose destination is the
empty subset, and the trace-membership conjunct applied to a concrete
trace that does contain the empty subset (outside the DFA state set). -/
theorem C10_witness :
    dfaLookup (thompson_algorithm_visual nfa2).1.transitions {1} 'b' =
      some (nfa2.move {1} 'b') ∧
    ((∅ : Finset Nat) ∈ (thompson_algorithm_visual nfa2).1.states ∨
      (∅ : Finset Nat) = ∅) :=
  ⟨(C10_transition_totality nfa2).1 {1} (by decide) 'b' (by decide),
   (C10_transition_totality nfa2).2.2.2.2.2 ['b', 'a'] ∅ (by decide)⟩

end Vis
